import Mathlib

/- Verification of the claims about the FIDO-saliency synthetic experiment
   (exp/synthetic/OracleInpainter.py), over a shallow embedding of the code:

   * a (28, 28) image tensor becomes a function `Fin 28 → Fin 28 → ℝ`; a batch of
     shape (B, 1, 28, 28) becomes `Fin B → Img` (the singleton channel dimension is
     kept implicit except where `squeeze` semantics depend on it, see `NpArr`);
   * float arithmetic becomes exact real arithmetic;
   * random draws become explicit inputs: the standard-normal tensor drawn inside
     `infer_label_probs` is an argument `eps`, the outcome of the single multinomial
     draw per image in `generate_background` is an argument `pick`;
   * the dataset module (datasets.MixtureOfBlocks) and the median filter module
     (median_pool.MedianPool2d) are part of the repository but not of the sources
     under verification, so they are modelled from the specification text; every
     such definition carries a `Modelled from the spec` comment. -/

set_option maxHeartbeats 1000000

abbrev Img := Fin 28 → Fin 28 → ℝ

namespace MixtureOfBlocks

/-- Modelled from the spec (datasets.MixtureOfBlocks is not among the verified
sources): "9 labels (3×3 grid)". -/
def num_labels : ℕ := 9

/-- Modelled from the spec: with 28×28 images and a pooling filter whose output,
after cropping one window of border, is the 4×4 label grid, the block width is 8
(pool kernel 8, stride 8/2 = 4 gives a 6×6 response, cropped to 4×4). -/
def block_width : ℕ := 8

/-- Side of the square label grid, `int(num_labels ** 0.5)` = 3. -/
def grid_side : ℕ := 3

/-- Modelled from the spec: "for occluded cells substitute independent noise at a
fixed noise level". The spec fixes no numeric value; any fixed constant works for
the claims, we take 1/100. -/
noncomputable def noise_level : ℝ := 1 / 100

/-- Modelled from the spec: the ground-truth rectangular patch of a label, on a
square grid of labels ("labels in the first two columns" refers to
`label % grid_side`), scaled by the stride argument.  Returns
(row_start, row_end, col_start, col_end). -/
def label_to_patch_pixels (label width stride : ℕ) : ℕ × ℕ × ℕ × ℕ :=
  (label / grid_side * stride, label / grid_side * stride + width,
   label % grid_side * stride, label % grid_side * stride + width)

/-- Modelled from the spec: "each image is generated from a chosen label and
intensity parameter via a deterministic block-drawing rule": intensity `beta` on
the label's ground-truth patch (dataset stride = block width), zero elsewhere. -/
noncomputable def generate_image (beta : ℝ) (label : ℕ) : Img := fun i j =>
  let q := label_to_patch_pixels label block_width block_width
  if q.1 ≤ i.val ∧ i.val < q.2.1 ∧ q.2.2.1 ≤ j.val ∧ j.val < q.2.2.2 then beta else 0

end MixtureOfBlocks

/-- ASCII lowercasing, the model of Python's `str.lower()` used on the mode
argument (`mode.lower()`). -/
def str_lower (s : String) : String := ⟨s.data.map Char.toLower⟩

/-- Row or column index of the cell `(4a+d, 4b+e)` of the pooling window at grid
position `(a, b)`: kernel size `MixtureOfBlocks.block_width` = 8, stride
`block_width // 2` = 4 on a 28×28 image, giving a 6×6 response grid. -/
def winIdx (a : Fin 6) (d : Fin 8) : Fin 28 := ⟨4 * a.val + d.val, by omega⟩

/-- torch.nn.AvgPool2d(kernel_size=8, stride=4) on a 28×28 single-channel image. -/
noncomputable def avg_pool (f : Img) (a b : Fin 6) : ℝ :=
  (∑ d : Fin 8, ∑ e : Fin 8, f (winIdx a d) (winIdx b e)) / 64

/-- The 64 values of one pooling window, flattened row-major. -/
noncomputable def window_vals (f : Img) (a b : Fin 6) : List ℝ :=
  List.ofFn fun t : Fin 64 => f (winIdx a ⟨t.val / 8, by omega⟩) (winIdx b ⟨t.val % 8, by omega⟩)

/-- Lower median of a list (the torch convention: element `(n-1)/2` of the sorted
values). -/
noncomputable def list_median (l : List ℝ) : ℝ :=
  (l.insertionSort (· ≤ ·)).getD ((l.length - 1) / 2) 0

/-- Modelled from the spec (median_pool.MedianPool2d is not among the verified
sources): "a windowed aggregation (median or mean) applied over fixed strides",
kernel 8 and stride 4 as for `avg_pool`. -/
noncomputable def median_pool (f : Img) (a b : Fin 6) : ℝ :=
  list_median (window_vals f a b)

/-- The oracle inpainter's state: the local-statistics filter `self.filt`
(either `median_pool` or `avg_pool`, both with kernel 8 and stride 4). -/
structure OracleInpainter where
  filt : Img → Fin 6 → Fin 6 → ℝ

/-- `OracleInpainter.__init__(mode)`: `assert mode.lower() in
['median', 'avg', 'average'], 'unsupported mode'`, then store the filter
(MedianPool2d for 'median', torch.nn.AvgPool2d otherwise).  The failed assertion
is modelled as an `Except.error`; it fires before any filter is built. -/
noncomputable def OracleInpainter.init (mode : String) : Except String OracleInpainter :=
  if str_lower mode = "median" ∨ str_lower mode = "avg" ∨ str_lower mode = "average" then
    .ok { filt := if str_lower mode = "median" then median_pool else avg_pool }
  else
    .error "unsupported mode"

/-- An oracle inpainter in 'avg' mode, used as concrete instance in witnesses. -/
noncomputable def inpAvg : OracleInpainter := { filt := avg_pool }

/-- Line `xm = (1. - mask)*x + mask*MixtureOfBlocks.noise_level*torch.randn(*mask.shape)`
of `infer_label_probs`; the normal draw is the explicit input `eps`. -/
noncomputable def masked_input (x mask eps : Img) : Img := fun i j =>
  (1 - mask i j) * x i j + mask i j * (MixtureOfBlocks.noise_level * eps i j)

/-- Row in the 6×6 response grid of entry `k` of the flattened, cropped logits:
`logits[:, :, 1:-1, 1:-1]` keeps rows/cols 1..4, and `.view(len(x), -1)` is
row-major over the 4×4 crop. -/
def crop_row (k : Fin 16) : Fin 6 := ⟨1 + k.val / 4, by omega⟩

/-- Column in the 6×6 response grid of entry `k` of the flattened, cropped logits. -/
def crop_col (k : Fin 16) : Fin 6 := ⟨1 + k.val % 4, by omega⟩

/-- The flattened 16 cropped filter responses of one image:
`self.filt(Variable(xm))` followed by `[:, :, 1:-1, 1:-1]` and `.view(len(x), -1)`
(`Variable`, `.contiguous()` and `.detach()` are identities in this model). -/
noncomputable def logits (inp : OracleInpainter) (x mask eps : Img) : Fin 16 → ℝ :=
  fun k => inp.filt (masked_input x mask eps) (crop_row k) (crop_col k)

/-- `F.softmax(·, 1)` on one row of 16 entries. -/
noncomputable def softmax {n : ℕ} (v : Fin n → ℝ) : Fin n → ℝ :=
  fun k => Real.exp (v k) / ∑ j, Real.exp (v j)

/-- `torch.sort(·, descending=True)` of the entries of one row. -/
def sortDesc {α : Type} [LinearOrder α] (l : List α) : List α :=
  l.insertionSort (· ≥ ·)

/-- The `k`-th largest entry of a vector, `sorted_probs[:, k]` for one row. -/
def nthDesc {α : Type} [LinearOrder α] [Zero α] {n : ℕ} (v : Fin n → α) (k : ℕ) : α :=
  (sortDesc (List.ofFn v)).getD k 0

/-- Line `label_probs*(label_probs > sorted_probs[:, 2, None]).float()` for one
image: zero out every probability not strictly above the 3rd-highest one. -/
noncomputable def sparsify (p : Fin 16 → ℝ) : Fin 16 → ℝ :=
  fun k => p k * (if nthDesc p 2 < p k then 1 else 0)

/-- Line `label_probs / label_probs.sum(1, keepdim=True)` for one image. -/
noncomputable def renormalize (s : Fin 16 → ℝ) : Fin 16 → ℝ :=
  fun k => s k / ∑ j, s j

/-- `OracleInpainter.infer_label_probs(x, mask)` for image `b` of the batch (the
`imshape=True` variant only reshapes the same values to the 4×4 grid for
plotting, so it is not modelled separately). -/
noncomputable def infer_label_probs (inp : OracleInpainter) {B : ℕ}
    (x mask eps : Fin B → Img) (b : Fin B) : Fin 16 → ℝ :=
  renormalize (sparsify (softmax (logits inp (x b) (mask b) (eps b))))

/-- C7: constructing the oracle inpainter with a mode whose lowercasing lies
outside {median, avg, average} — in particular "unsupported" — fails immediately
with the `'unsupported mode'` assertion, before any filter state is built. -/
theorem init_rejects_invalid_mode (mode : String)
    (h : str_lower mode ≠ "median" ∧ str_lower mode ≠ "avg" ∧ str_lower mode ≠ "average") :
    OracleInpainter.init mode = .error "unsupported mode" := by
  unfold OracleInpainter.init
  rw [if_neg]
  push_neg
  exact h

/-- Witness for C7 at the concrete mode string "unsupported". -/
theorem init_rejects_invalid_mode_witness :
    (str_lower "unsupported" ≠ "median" ∧ str_lower "unsupported" ≠ "avg" ∧
      str_lower "unsupported" ≠ "average") ∧
    OracleInpainter.init "unsupported" = .error "unsupported mode" :=
  ⟨by decide, init_rejects_invalid_mode "unsupported" (by decide)⟩

/-- C8: label-probability inference is deterministic once the injected noise is
fixed: two calls on pointwise-equal images, masks and noise draws return the
same distribution. -/
theorem infer_label_probs_deterministic (inp : OracleInpainter) {B : ℕ}
    (x x' mask mask' eps eps' : Fin B → Img)
    (hx : ∀ b i j, x b i j = x' b i j)
    (hm : ∀ b i j, mask b i j = mask' b i j)
    (he : ∀ b i j, eps b i j = eps' b i j) (b : Fin B) :
    infer_label_probs inp x mask eps b = infer_label_probs inp x' mask' eps' b := by
  have hx' : x = x' := funext fun b => funext fun i => funext fun j => hx b i j
  have hm' : mask = mask' := funext fun b => funext fun i => funext fun j => hm b i j
  have he' : eps = eps' := funext fun b => funext fun i => funext fun j => he b i j
  rw [hx', hm', he']

/-- Witness for C8: two syntactically different but pointwise-equal inputs. -/
theorem infer_label_probs_deterministic_witness :
    infer_label_probs inpAvg (fun _ _ _ => 0) (fun _ _ _ => 1) (fun _ _ _ => 0)
        (0 : Fin 1) =
      infer_label_probs inpAvg (fun _ _ _ => 0 + 0) (fun _ _ _ => 2 - 1) (fun _ _ _ => 0 * 3)
        (0 : Fin 1) :=
  infer_label_probs_deterministic inpAvg _ _ _ _ _ _
    (fun _ _ _ => by norm_num) (fun _ _ _ => by norm_num) (fun _ _ _ => by norm_num) 0

/-- The maximum pixel value of one image, `x.max(-1)[0].max(-1)[0]` (max over the
last axis twice). -/
noncomputable def max_pixel (f : Img) : ℝ :=
  Finset.univ.sup' Finset.univ_nonempty fun i =>
    Finset.univ.sup' Finset.univ_nonempty fun j => f i j

/-- torch `clamp(0., 1.)`. -/
noncomputable def clamp01 (t : ℝ) : ℝ := min (max t 0) 1

/-- A numpy array of `B` entries of type `α` as produced by `.squeeze().numpy()`
on a tensor of shape (B, 1): `shape` is the shape left after `squeeze` removed
every singleton axis, and `val` indexes the underlying values.  Iterating it
(e.g. by `zip`) demands at least one axis; on a 0-d array numpy raises
`TypeError: iteration over a 0-d array`. -/
structure NpArr (B : ℕ) (α : Type) where
  shape : List ℕ
  val : Fin B → α

/-- numpy `squeeze`: drop every axis of extent 1. -/
def np_squeeze (shape : List ℕ) : List ℕ := shape.filter (fun d => d != 1)

/-- Iterating a numpy array: fails on a 0-d array, otherwise yields its values. -/
def np_iter {B : ℕ} {α : Type} (a : NpArr B α) : Except String (Fin B → α) :=
  if a.shape = [] then .error "TypeError: iteration over a 0-d array" else .ok a.val

/-- `OracleInpainter.generate_background(x, mask)`.  Step 1 computes the label
probabilities; step 2 draws one label per image by `torch.multinomial` — the
draw's outcome is the explicit input `pick` — and `.squeeze()`s the (B, 1)
result; step 3 computes `betas` as the per-image clamped maximum pixel value,
shape (B, 1) before `.squeeze()` because of the channel axis; the
`zip(label_samps, betas)` iteration then fails for a singleton batch, whose
squeezed arrays are 0-dimensional; step 4 stacks the synthesized images. -/
noncomputable def generate_background (inp : OracleInpainter) {B : ℕ}
    (x mask eps : Fin B → Img) (pick : Fin B → Fin 16) :
    Except String (Fin B → Img) := do
  let _label_probs := infer_label_probs inp x mask eps
  let label_samps : NpArr B (Fin 16) := { shape := np_squeeze [B, 1], val := pick }
  let betas : NpArr B ℝ :=
    { shape := np_squeeze [B, 1], val := fun b => clamp01 (max_pixel (x b)) }
  let ls ← np_iter label_samps
  let bs ← np_iter betas
  .ok fun b => MixtureOfBlocks.generate_image (bs b) (ls b).val

/-- `OracleInpainter.impute_missing_imgs(x, mask)`:
`x * mask + backgnd * (1. - mask)` with `backgnd = generate_background(x, mask)`. -/
noncomputable def impute_missing_imgs (inp : OracleInpainter) {B : ℕ}
    (x mask eps : Fin B → Img) (pick : Fin B → Fin 16) :
    Except String (Fin B → Img) := do
  let backgnd ← generate_background inp x mask eps pick
  .ok fun b i j => x b i j * mask b i j + backgnd b i j * (1 - mask b i j)

/-- C9: on a batch with exactly one image, squeezing the (1, 1)-shaped sampled
labels and betas yields 0-dimensional arrays whose iteration fails, so
`generate_background` (and hence `impute_missing_imgs`) returns the numpy
iteration error instead of a synthesized batch. -/
theorem generate_background_fails_on_singleton_batch (inp : OracleInpainter)
    (x mask eps : Fin 1 → Img) (pick : Fin 1 → Fin 16) :
    generate_background inp x mask eps pick =
        .error "TypeError: iteration over a 0-d array" ∧
      impute_missing_imgs inp x mask eps pick =
        .error "TypeError: iteration over a 0-d array" :=
  ⟨rfl, rfl⟩

/-- Squeezing the shape (B, 1) gives the empty shape exactly for B = 1. -/
theorem np_squeeze_pair_eq_nil (B : ℕ) : np_squeeze [B, 1] = [] ↔ B = 1 := by
  by_cases h : B = 1
  · simp [np_squeeze, List.filter, h]
  · have hb : (B != 1) = true := by simp [h]
    simp [np_squeeze, List.filter, hb, h]

/-- On a batch of any size other than 1, `generate_background` succeeds and
returns, for each image, the dataset block of the sampled label at the clamped
maximum pixel value of that image. -/
theorem generate_background_eq (inp : OracleInpainter) {B : ℕ}
    (x mask eps : Fin B → Img) (pick : Fin B → Fin 16) (hB : B ≠ 1) :
    generate_background inp x mask eps pick =
      .ok fun b => MixtureOfBlocks.generate_image (clamp01 (max_pixel (x b))) (pick b).val := by
  have h : ¬ np_squeeze [B, 1] = [] := fun hc => hB ((np_squeeze_pair_eq_nil B).mp hc)
  unfold generate_background np_iter
  simp only [h, if_false, if_neg h]
  rfl

/-- C5 amended: the intensity parameter `beta` of each image is the clamped
maximum over ALL pixels of that image — the mask is never consulted, so occluded
pixels do influence it.  Consequently each synthesized background image is the
dataset block of the picked label at intensity `clamp01 (max_pixel (x b))`, and
`generate_background` returns the same batch for every mask (once the multinomial
outcome `pick` is fixed). -/
theorem generate_background_beta (inp : OracleInpainter) {B : ℕ}
    (x mask eps : Fin B → Img) (pick : Fin B → Fin 16) (out : Fin B → Img)
    (h : generate_background inp x mask eps pick = .ok out) :
    (∀ b, out b = MixtureOfBlocks.generate_image (clamp01 (max_pixel (x b))) (pick b).val) ∧
    (∀ mask' : Fin B → Img, generate_background inp x mask' eps pick = .ok out) := by
  by_cases hB : B = 1
  · subst hB
    have herr : generate_background inp x mask eps pick =
        .error "TypeError: iteration over a 0-d array" := rfl
    rw [herr] at h
    exact absurd h (by simp)
  · rw [generate_background_eq inp x mask eps pick hB] at h
    have h' := Except.ok.inj h
    constructor
    · intro b
      exact (congrFun h' b).symm
    · intro mask'
      rw [generate_background_eq inp x mask' eps pick hB, h']

/-- Modelled from the spec's words, for comparison with the code: "beta ...
estimated from the maximum visible pixel value" — the clamped maximum of `x`
over the cells where `mask = 0`; `h` certifies at least one visible cell. -/
noncomputable def visible_beta (x mask : Img)
    (h : (Finset.univ.filter fun p : Fin 28 × Fin 28 => mask p.1 p.2 = 0).Nonempty) : ℝ :=
  clamp01 ((Finset.univ.filter fun p : Fin 28 × Fin 28 => mask p.1 p.2 = 0).sup' h
    fun p => x p.1 p.2)

/-- Image whose largest pixel (value 5, at the corner) is occluded by `mV`. -/
noncomputable def xV : Img := fun i j => if i.val = 0 ∧ j.val = 0 then 5 else 1 / 2

/-- Mask occluding exactly the corner pixel of `xV`. -/
noncomputable def mV : Img := fun i j => if i.val = 0 ∧ j.val = 0 then 1 else 0

/-- The mask `mV` leaves some cell visible. -/
theorem mV_has_visible :
    (Finset.univ.filter fun p : Fin 28 × Fin 28 => mV p.1 p.2 = 0).Nonempty := by
  refine ⟨(1, 1), Finset.mem_filter.mpr ⟨Finset.mem_univ _, ?_⟩⟩
  norm_num [mV]

/-- The maximum pixel of `xV` is the occluded 5. -/
theorem max_pixel_xV : max_pixel xV = 5 := by
  apply le_antisymm
  · apply Finset.sup'_le
    intro i _
    apply Finset.sup'_le
    intro j _
    unfold xV
    split_ifs <;> norm_num
  · calc (5:ℝ) = xV 0 0 := by norm_num [xV]
      _ ≤ Finset.univ.sup' Finset.univ_nonempty fun j => xV 0 j :=
        Finset.le_sup' (fun j => xV 0 j) (Finset.mem_univ (0 : Fin 28))
      _ ≤ max_pixel xV := by
        unfold max_pixel
        exact Finset.le_sup' (fun i => Finset.univ.sup' Finset.univ_nonempty fun j => xV i j)
          (Finset.mem_univ (0 : Fin 28))

/-- C5 counterexample: for the image `xV` under the mask `mV`, the `betas` value
computed by `generate_background` is the clamped maximum over all pixels, 1
(driven by the occluded corner pixel of value 5), whereas the clamped maximum
over the visible pixels is 1/2 — so the occluded pixel does influence beta and
the claim's "visible pixels only" is false on the code. -/
theorem beta_counts_occluded_pixels :
    mV 0 0 = 1 ∧ clamp01 (max_pixel xV) = 1 ∧
      visible_beta xV mV mV_has_visible = 1 / 2 ∧ (1 : ℝ) ≠ 1 / 2 := by
  refine ⟨by norm_num [mV], ?_, ?_, by norm_num⟩
  · rw [max_pixel_xV]
    norm_num [clamp01]
  · unfold visible_beta
    have hsup : ((Finset.univ.filter fun p : Fin 28 × Fin 28 => mV p.1 p.2 = 0).sup'
        mV_has_visible fun p => xV p.1 p.2) = 1 / 2 := by
      apply le_antisymm
      · apply Finset.sup'_le
        intro p hp
        have hm : mV p.1 p.2 = 0 := (Finset.mem_filter.mp hp).2
        unfold mV at hm
        unfold xV
        split_ifs with hc
        · rw [if_pos hc] at hm
          norm_num at hm
        · exact le_refl _
      · have hmem : ((1 : Fin 28), (1 : Fin 28)) ∈
            (Finset.univ.filter fun p : Fin 28 × Fin 28 => mV p.1 p.2 = 0) :=
          Finset.mem_filter.mpr ⟨Finset.mem_univ _, by norm_num [mV]⟩
        calc (1/2 : ℝ) = xV 1 1 := by norm_num [xV]
          _ ≤ _ := Finset.le_sup' (fun p : Fin 28 × Fin 28 => xV p.1 p.2) hmem
    rw [hsup]
    norm_num [clamp01]

/-- Batch of two copies of `xV`, for exercising `generate_background`. -/
noncomputable def xVB : Fin 2 → Img := fun _ => xV

/-- Batch of two copies of the mask `mV`. -/
noncomputable def mVB : Fin 2 → Img := fun _ => mV

/-- Zero noise draw for the two-image batch. -/
noncomputable def epsVB : Fin 2 → Img := fun _ _ _ => 0

/-- Multinomial outcome picking flat label 0 for both images. -/
def pickVB : Fin 2 → Fin 16 := fun _ => 0

/-- The background batch `generate_background` returns on `xVB`. -/
noncomputable def outV : Fin 2 → Img := fun b =>
  MixtureOfBlocks.generate_image (clamp01 (max_pixel (xVB b))) (pickVB b).val

/-- Witness for C5: on the concrete two-image batch the theorem applies (its
`.ok` hypothesis holds by computation) and background synthesis gives the same
result under the everywhere-zero mask. -/
theorem generate_background_beta_witness :
    generate_background inpAvg xVB (fun _ _ _ => 0) epsVB pickVB = .ok outV :=
  (generate_background_beta inpAvg xVB mVB epsVB pickVB outV
    (generate_background_eq inpAvg xVB mVB epsVB pickVB (by norm_num))).2 _

/-- Two-image batch of constant half-intensity images. -/
noncomputable def xI : Fin 2 → Img := fun _ _ _ => 1 / 2

/-- Mask occluding (value 1) the top half (rows 0..13) of each image. -/
noncomputable def mI : Fin 2 → Img := fun _ i _ => if i.val < 14 then 1 else 0

/-- Zero noise draw for the batch `xI`. -/
noncomputable def epsI : Fin 2 → Img := fun _ _ _ => 0

/-- Multinomial outcome picking flat label 0 for both images of `xI`. -/
def pickI : Fin 2 → Fin 16 := fun _ => 0

/-- The batch `impute_missing_imgs` returns on `(xI, mI)`: the code's composite
`x * mask + backgnd * (1 - mask)`. -/
noncomputable def imputeOutI : Fin 2 → Img := fun b i j =>
  xI b i j * mI b i j +
    MixtureOfBlocks.generate_image (clamp01 (max_pixel (xI b))) (pickI b).val i j *
      (1 - mI b i j)

/-- C1: evaluation of `impute_missing_imgs` at a failing input for the claimed
composite law.  At cell (20, 20) of image 0 the mask is 0 (visible), so the
claim demands the original pixel 1/2; the code instead returns the synthesized
background there (0, since (20, 20) lies outside the label-0 block): the code's
composite `x*mask + backgnd*(1-mask)` keeps `x` where mask = 1 and the
background where mask = 0, the reverse of the claimed law (and of the mask
convention `infer_label_probs` itself uses). -/
theorem impute_missing_imgs_keeps_x_on_occluded :
    impute_missing_imgs inpAvg xI mI epsI pickI = .ok imputeOutI ∧
      mI 0 20 20 = 0 ∧ imputeOutI 0 20 20 = 0 ∧ xI 0 20 20 = 1 / 2 ∧ (0 : ℝ) ≠ 1 / 2 := by
  refine ⟨rfl, ?_, ?_, rfl, by norm_num⟩
  · norm_num [mI, show ((20 : Fin 28) : ℕ) = 20 from rfl]
  · norm_num [imputeOutI, xI, mI, MixtureOfBlocks.generate_image,
      MixtureOfBlocks.label_to_patch_pixels, MixtureOfBlocks.block_width,
      MixtureOfBlocks.grid_side, show ((20 : Fin 28) : ℕ) = 20 from rfl,
      show ((pickI 0) : ℕ) = 0 from rfl]

/-- `random_mask(im_shape, p)`: `torch.Tensor(np.random.binomial(1, p,
size=im_shape)).unsqueeze(0)`.  Each Bernoulli(p) draw is modelled by inverting
a uniform draw `u i j` (the cell is 1 iff `u i j < p`); `unsqueeze(0)` prepends
a singleton axis, visible here as the `Fin 1` argument. -/
noncomputable def random_mask (H W : ℕ) (p : ℝ) (u : Fin H → Fin W → ℝ) :
    Fin 1 → Fin H → Fin W → ℝ :=
  fun _ i j => if u i j < p then 1 else 0

/-- The tensor shape `random_mask` returns: the given image shape (H, W) with
the singleton axis `unsqueeze(0)` prepends. -/
def random_mask_shape (H W : ℕ) : List ℕ := [1, H, W]

/-- C4 counterexample: the mask's shape is not the given image shape — for the
28×28 image shape the returned tensor has shape (1, 28, 28). -/
theorem random_mask_shape_not_im_shape : random_mask_shape 28 28 ≠ [28, 28] := by
  decide

/-- C4 amended: for every probability p in [0, 1] and every image shape, the
mask has the image shape with one prepended singleton axis — (1, H, W), not
(H, W) — and every cell is 0 or 1. -/
theorem random_mask_shape_and_values (H W : ℕ) (p : ℝ) (u : Fin H → Fin W → ℝ)
    (_hp0 : 0 ≤ p) (_hp1 : p ≤ 1) :
    random_mask_shape H W = 1 :: [H, W] ∧
      ∀ c i j, random_mask H W p u c i j ∈ ({0, 1} : Set ℝ) := by
  refine ⟨rfl, fun c i j => ?_⟩
  unfold random_mask
  split_ifs <;> simp

/-- Witness for C4 at p = 1/2 on a 2×2 image shape with an all-zero uniform
draw. -/
theorem random_mask_shape_and_values_witness :
    ((0:ℝ) ≤ 1/2 ∧ (1/2:ℝ) ≤ 1) ∧
      random_mask 2 2 (1/2) (fun _ _ => 0) 0 0 0 ∈ ({0, 1} : Set ℝ) :=
  ⟨⟨by norm_num, by norm_num⟩,
    (random_mask_shape_and_values 2 2 (1/2) (fun _ _ => 0) (by norm_num) (by norm_num)).2 0 0 0⟩

/-- The value `np.roll(·, o, axis=1)` reads at column `j`: column `(j - o) mod 28`. -/
def roll_idx (j : Fin 28) (o : ℤ) : Fin 28 :=
  ⟨(((j : ℤ) - o) % 28).toNat, by
    have h1 := Int.emod_nonneg ((j : ℤ) - o) (by norm_num : (28 : ℤ) ≠ 0)
    have h2 := Int.emod_lt_of_pos ((j : ℤ) - o) (by norm_num : (0 : ℤ) < 28)
    omega⟩

/-- `np.roll(f, o, 1)`: cyclically shift the columns of `f` right by `o`. -/
noncomputable def roll_cols (f : Img) (o : ℤ) : Img := fun i j => f i (roll_idx j o)

/-- The ground-truth block indicator built by `random_half_block_mask`:
zeros with `block[row_start:row_end, col_start:col_end] += 1`, the bounds coming
from `_label_to_patch_pixels(label, block_width, block_width // 2)` (half
stride). -/
noncomputable def hb_block (label : ℕ) : Img := fun i j =>
  let q := MixtureOfBlocks.label_to_patch_pixels label MixtureOfBlocks.block_width
    (MixtureOfBlocks.block_width / 2)
  if q.1 ≤ i.val ∧ i.val < q.2.1 ∧ q.2.2.1 ≤ j.val ∧ j.val < q.2.2.2 then 1 else 0

/-- The label-dependent horizontal offset of `random_half_block_mask`:
`(-1 if label % int(num_labels ** 0.5) < 2 else 1) * block_width // 2`. -/
def hb_offset (label : ℕ) : ℤ :=
  (if label % MixtureOfBlocks.grid_side < 2 then -1 else 1) *
    (MixtureOfBlocks.block_width / 2 : ℕ)

/-- `random_half_block_mask(im_shape, label)` (the 28×28 single channel; drawing
`label` when it is None is modelled by quantifying over labels below
`2 * num_labels`):
`mask = block * np.roll(block, offset, 1); mask += (1-block) * np.roll(block, -offset, 1)`. -/
noncomputable def random_half_block_mask (label : ℕ) : Img := fun i j =>
  hb_block label i j * roll_cols (hb_block label) (hb_offset label) i j +
    (1 - hb_block label i j) * roll_cols (hb_block label) (-hb_offset label) i j

/-- C10: every cell of a half-block mask is 0 or 1: the first added term lives
inside the ground-truth block, the second inside its complement, so the two
rolled-block terms never overlap and no cell sums to 2. -/
theorem random_half_block_mask_binary (label : ℕ) (i j : Fin 28) :
    random_half_block_mask label i j ∈ ({0, 1} : Set ℝ) := by
  unfold random_half_block_mask roll_cols hb_block
  simp only [MixtureOfBlocks.label_to_patch_pixels]
  split_ifs <;> norm_num

/-- Modelled from the spec's words, for comparison with the code: "a mask that
is the union of the patch shifted by a label-dependent horizontal offset and the
patch shifted by the negated offset" (the union of 0/1 indicators is their
pointwise maximum). -/
noncomputable def spec_shift_union_mask (label : ℕ) : Img := fun i j =>
  max (roll_cols (hb_block label) (hb_offset label) i j)
    (roll_cols (hb_block label) (-hb_offset label) i j)

/-- C6 counterexample: for label 0 the code's half-block mask is not the union
of the two shifted patches: at cell (0, 24) the shifted-patch union is 1 (the
patch spans columns 0..7 and rows 0..7, and shifting by the offset -4 covers
column 24 after the cyclic roll), while the code's mask — which intersects the
rolled patches with the patch and its complement — is 0 there. -/
theorem half_block_mask_differs_from_shift_union :
    spec_shift_union_mask 0 0 24 = 1 ∧ random_half_block_mask 0 0 24 = 0 ∧ (1 : ℝ) ≠ 0 := by
  have h1 : roll_idx (24 : Fin 28) (hb_offset 0) = (0 : Fin 28) := by decide
  have h2 : roll_idx (24 : Fin 28) (-hb_offset 0) = (20 : Fin 28) := by decide
  refine ⟨?_, ?_, by norm_num⟩
  · unfold spec_shift_union_mask roll_cols
    rw [h1, h2]
    norm_num [hb_block, MixtureOfBlocks.label_to_patch_pixels, MixtureOfBlocks.block_width,
      MixtureOfBlocks.grid_side, show ((0 : Fin 28) : ℕ) = 0 from rfl,
      show ((20 : Fin 28) : ℕ) = 20 from rfl]
  · unfold random_half_block_mask roll_cols
    rw [h1, h2]
    norm_num [hb_block, MixtureOfBlocks.label_to_patch_pixels, MixtureOfBlocks.block_width,
      MixtureOfBlocks.grid_side, show ((0 : Fin 28) : ℕ) = 0 from rfl,
      show ((20 : Fin 28) : ℕ) = 20 from rfl, show ((24 : Fin 28) : ℕ) = 24 from rfl]

/-- C6 amended: for every label below `2 * num_labels`, the half-block mask is
the part of the ground-truth patch covered by the patch rolled by the offset,
together with the part of the patch rolled by the negated offset lying outside
the patch.  Its set pixels are contained in the union of two axis-aligned
rectangles of the area of one patch each — the patch itself (rows `label/3*4 ..
+8`, columns `label%3*4 .. +8`) and the patch translated horizontally by minus
the offset — and the mask is neither all-zero (some cell is 1) nor all-one
(cell (0, 27) is 0). -/
theorem random_half_block_mask_structure (label : ℕ)
    (hl : label < 2 * MixtureOfBlocks.num_labels) :
    (∀ i j : Fin 28, random_half_block_mask label i j ≠ 0 →
        (label / 3 * 4 ≤ i.val ∧ i.val < label / 3 * 4 + 8 ∧
          label % 3 * 4 ≤ j.val ∧ j.val < label % 3 * 4 + 8) ∨
        (label / 3 * 4 ≤ i.val ∧ i.val < label / 3 * 4 + 8 ∧
          (label % 3 * 4 : ℤ) - hb_offset label ≤ (j.val : ℤ) ∧
          (j.val : ℤ) < (label % 3 * 4 : ℤ) + 8 - hb_offset label)) ∧
    (∃ i j : Fin 28, random_half_block_mask label i j = 1) ∧
    random_half_block_mask label 0 27 = 0 := by
  have hl' : label < 18 := by
    simpa [MixtureOfBlocks.num_labels] using hl
  have hblock : ∀ i j : Fin 28, hb_block label i j =
      if label / 3 * 4 ≤ i.val ∧ i.val < label / 3 * 4 + 8 ∧
          label % 3 * 4 ≤ j.val ∧ j.val < label % 3 * 4 + 8 then (1 : ℝ) else 0 :=
    fun i j => rfl
  refine ⟨?_, ?_, ?_⟩
  · intro i j hne
    unfold random_half_block_mask roll_cols at hne
    simp only [hblock] at hne
    by_cases hC1 : label / 3 * 4 ≤ i.val ∧ i.val < label / 3 * 4 + 8 ∧
        label % 3 * 4 ≤ j.val ∧ j.val < label % 3 * 4 + 8
    · exact Or.inl hC1
    · right
      rw [if_neg hC1] at hne
      by_cases hC3 : label / 3 * 4 ≤ i.val ∧ i.val < label / 3 * 4 + 8 ∧
          label % 3 * 4 ≤ (roll_idx j (-hb_offset label)).val ∧
          (roll_idx j (-hb_offset label)).val < label % 3 * 4 + 8
      · refine ⟨hC3.1, hC3.2.1, ?_, ?_⟩ <;>
        · have hcol := hC3.2.2
          have hj := j.isLt
          rcases Nat.lt_or_ge (label % 3) 2 with h3 | h3
          · have ho : hb_offset label = -4 := by
              simp [hb_offset, MixtureOfBlocks.grid_side, MixtureOfBlocks.block_width, h3]
            rw [ho] at hcol ⊢
            simp only [roll_idx] at hcol
            omega
          · have ho : hb_offset label = 4 := by
              simp [hb_offset, MixtureOfBlocks.grid_side, MixtureOfBlocks.block_width,
                Nat.not_lt.mpr h3]
            rw [ho] at hcol ⊢
            simp only [roll_idx] at hcol
            omega
      · rw [if_neg hC3] at hne
        norm_num at hne
  · have hv : ∀ (m : ℕ) (hm : m < 28), ((⟨m, hm⟩ : Fin 28) : ℕ) = m := fun _ _ => rfl
    rcases Nat.lt_or_ge (label % 3) 2 with h3 | h3
    · have ho : hb_offset label = -4 := by
        simp [hb_offset, MixtureOfBlocks.grid_side, MixtureOfBlocks.block_width, h3]
      refine ⟨⟨label / 3 * 4, by omega⟩, ⟨label % 3 * 4, by omega⟩, ?_⟩
      unfold random_half_block_mask roll_cols
      simp only [hblock, ho, roll_idx, hv]
      split_ifs
      all_goals try norm_num
      all_goals exfalso
      all_goals push_cast at *
      all_goals omega
    · have ho : hb_offset label = 4 := by
        simp [hb_offset, MixtureOfBlocks.grid_side, MixtureOfBlocks.block_width,
          Nat.not_lt.mpr h3]
      refine ⟨⟨label / 3 * 4, by omega⟩, ⟨label % 3 * 4 + 4, by omega⟩, ?_⟩
      unfold random_half_block_mask roll_cols
      simp only [hblock, ho, roll_idx, hv]
      split_ifs
      all_goals try norm_num
      all_goals exfalso
      all_goals push_cast at *
      all_goals omega
  · have h0 : ((0 : Fin 28) : ℕ) = 0 := rfl
    have h27 : ((27 : Fin 28) : ℕ) = 27 := rfl
    rcases Nat.lt_or_ge (label % 3) 2 with h3 | h3
    · have ho : hb_offset label = -4 := by
        simp [hb_offset, MixtureOfBlocks.grid_side, MixtureOfBlocks.block_width, h3]
      unfold random_half_block_mask roll_cols
      simp only [hblock, ho, roll_idx, h0, h27]
      split_ifs
      all_goals try norm_num
      all_goals exfalso
      all_goals push_cast at *
      all_goals omega
    · have ho : hb_offset label = 4 := by
        simp [hb_offset, MixtureOfBlocks.grid_side, MixtureOfBlocks.block_width,
          Nat.not_lt.mpr h3]
      unfold random_half_block_mask roll_cols
      simp only [hblock, ho, roll_idx, h0, h27]
      split_ifs
      all_goals try norm_num
      all_goals exfalso
      all_goals push_cast at *
      all_goals omega

/-- Witness for C6 at the concrete label 0. -/
theorem random_half_block_mask_structure_witness :
    0 < 2 * MixtureOfBlocks.num_labels ∧ random_half_block_mask 0 0 27 = 0 :=
  ⟨by norm_num [MixtureOfBlocks.num_labels],
    (random_half_block_mask_structure 0 (by norm_num [MixtureOfBlocks.num_labels])).2.2⟩

/-- The descending sort of a vector's entries has the vector's length. -/
theorem length_sortDesc {α : Type} [LinearOrder α] (l : List α) :
    (sortDesc l).length = l.length :=
  (List.perm_insertionSort _ l).length_eq

/-- The descending sort is sorted for ≥. -/
theorem sorted_sortDesc {α : Type} [LinearOrder α] (l : List α) :
    List.Sorted (· ≥ ·) (sortDesc l) :=
  List.sorted_insertionSort _ l

/-- The descending sort is a permutation of the input. -/
theorem perm_sortDesc {α : Type} [LinearOrder α] (l : List α) :
    List.Perm (sortDesc l) l :=
  List.perm_insertionSort _ l

/-- Every entry of the descending sort of a vector is an entry of the vector. -/
theorem mem_sortDesc {α : Type} [LinearOrder α] {n : ℕ} {v : Fin n → α} {x : α}
    (hx : x ∈ sortDesc (List.ofFn v)) : ∃ i, v i = x :=
  (List.mem_ofFn v x).mp ((perm_sortDesc (List.ofFn v)).mem_iff.mp hx)

/-- Sorting commutes with mapping a monotone function. -/
theorem sortDesc_map_mono {α β : Type} [LinearOrder α] [LinearOrder β]
    (g : α → β) (hg : Monotone g) (l : List α) :
    sortDesc (l.map g) = (sortDesc l).map g := by
  refine List.eq_of_perm_of_sorted ?_ (sorted_sortDesc _) ?_
  · exact (perm_sortDesc (l.map g)).trans ((perm_sortDesc l).symm.map g)
  · exact (sorted_sortDesc l).map g fun a b hab => hg hab

/-- The `k`-th largest entry of a vector transported through a monotone map. -/
theorem nthDesc_comp_mono {n : ℕ} (g : ℝ → ℝ) (hg : Monotone g) (v : Fin n → ℝ)
    (k : ℕ) (hk : k < n) :
    nthDesc (fun i => g (v i)) k = g (nthDesc v k) := by
  have hmap : List.ofFn (fun i => g (v i)) = (List.ofFn v).map g :=
    (List.map_ofFn v g).symm
  have hlen : (sortDesc (List.ofFn v)).length = n := by
    rw [length_sortDesc, List.length_ofFn]
  have hlen' : ((sortDesc (List.ofFn v)).map g).length = n := by
    rw [List.length_map, hlen]
  unfold nthDesc
  rw [hmap, sortDesc_map_mono g hg]
  rw [List.getD_eq_getElem _ _ (by rw [hlen']; exact hk),
    List.getD_eq_getElem _ _ (by rw [hlen]; exact hk)]
  simp

/-- Decomposition of a 16-entry vector's descending sort into its three largest
entries and the rest. -/
theorem sortDesc_three (v : Fin 16 → ℝ) :
    ∃ a b c rest, sortDesc (List.ofFn v) = a :: b :: c :: rest ∧
      nthDesc v 0 = a ∧ nthDesc v 1 = b ∧ nthDesc v 2 = c ∧
      b ≤ a ∧ c ≤ b ∧ ∀ x ∈ rest, x ≤ c := by
  have hlen : (sortDesc (List.ofFn v)).length = 16 := by
    rw [length_sortDesc, List.length_ofFn]
  have hsorted := sorted_sortDesc (List.ofFn v)
  rcases hL : sortDesc (List.ofFn v) with _ | ⟨a, _ | ⟨b, _ | ⟨c, rest⟩⟩⟩ <;>
    rw [hL] at hlen <;> simp at hlen
  rw [hL] at hsorted
  obtain ⟨ha, hsorted1⟩ := List.sorted_cons.mp hsorted
  obtain ⟨hb, hsorted2⟩ := List.sorted_cons.mp hsorted1
  obtain ⟨hc, _⟩ := List.sorted_cons.mp hsorted2
  refine ⟨a, b, c, rest, rfl, ?_, ?_, ?_, ?_, ?_, ?_⟩
  · unfold nthDesc; rw [hL]; rfl
  · unfold nthDesc; rw [hL]; rfl
  · unfold nthDesc; rw [hL]; rfl
  · exact ha b (by simp)
  · exact hb c (by simp)
  · exact fun x hx => hc x hx

/-- At most two entries of a 16-entry vector lie strictly above its 3rd-largest
entry. -/
theorem countP_above_third_le_two (v : Fin 16 → ℝ) :
    ((List.ofFn v).countP fun t => decide (nthDesc v 2 < t)) ≤ 2 := by
  obtain ⟨a, b, c, rest, hL, _, _, h2, hba, hcb, hrest⟩ := sortDesc_three v
  rw [← (perm_sortDesc (List.ofFn v)).countP_eq, hL, h2]
  have hzero : rest.countP (fun t => decide (c < t)) = 0 :=
    List.countP_eq_zero.mpr fun x hx => by simp [not_lt.mpr (hrest x hx)]
  simp only [List.countP_cons, hzero]
  split_ifs <;> simp_all

/-- When the 2nd-largest entry is strictly above the 3rd-largest, exactly two
entries lie strictly above the 3rd-largest. -/
theorem countP_above_third_eq_two (v : Fin 16 → ℝ) (h : nthDesc v 2 < nthDesc v 1) :
    ((List.ofFn v).countP fun t => decide (nthDesc v 2 < t)) = 2 := by
  obtain ⟨a, b, c, rest, hL, _, h1, h2, hba, hcb, hrest⟩ := sortDesc_three v
  rw [h1, h2] at h
  rw [← (perm_sortDesc (List.ofFn v)).countP_eq, hL, h2]
  have hzero : rest.countP (fun t => decide (c < t)) = 0 :=
    List.countP_eq_zero.mpr fun x hx => by simp [not_lt.mpr (hrest x hx)]
  simp only [List.countP_cons, hzero]
  have hca : c < a := lt_of_lt_of_le h hba
  split_ifs <;> simp_all

/-- Some entry of the vector realizes the largest sorted value. -/
theorem exists_eq_nthDesc_zero (v : Fin 16 → ℝ) : ∃ k, v k = nthDesc v 0 := by
  obtain ⟨a, b, c, rest, hL, h0, _, _, _, _, _⟩ := sortDesc_three v
  rw [h0]
  exact mem_sortDesc (by rw [hL]; simp)

/-- Positivity of the softmax output (16 entries). -/
theorem softmax_pos (v : Fin 16 → ℝ) (k : Fin 16) : 0 < softmax v k :=
  div_pos (Real.exp_pos _) (Finset.sum_pos (fun _ _ => Real.exp_pos _) Finset.univ_nonempty)

/-- Strict order of sorted entries survives the softmax (it rescales
monotonically: exp composed with division by the fixed positive denominator). -/
theorem nthDesc_softmax_lt (v : Fin 16 → ℝ) (k1 k2 : ℕ) (hk1 : k1 < 16) (hk2 : k2 < 16)
    (h : nthDesc v k1 < nthDesc v k2) :
    nthDesc (softmax v) k1 < nthDesc (softmax v) k2 := by
  have hS : 0 < ∑ j, Real.exp (v j) :=
    Finset.sum_pos (fun _ _ => Real.exp_pos _) Finset.univ_nonempty
  have hg : StrictMono fun t => Real.exp t / ∑ j, Real.exp (v j) :=
    Real.exp_strictMono.div_const hS
  have e1 : nthDesc (softmax v) k1 = Real.exp (nthDesc v k1) / ∑ j, Real.exp (v j) :=
    nthDesc_comp_mono _ hg.monotone v k1 hk1
  have e2 : nthDesc (softmax v) k2 = Real.exp (nthDesc v k2) / ∑ j, Real.exp (v j) :=
    nthDesc_comp_mono _ hg.monotone v k2 hk2
  rw [e1, e2]
  exact hg h

/-- Sparsified probabilities are non-negative when the input is positive. -/
theorem sparsify_nonneg (p : Fin 16 → ℝ) (hpos : ∀ k, 0 < p k) (k : Fin 16) :
    0 ≤ sparsify p k := by
  unfold sparsify
  split_ifs <;> simp [(hpos k).le]

/-- When the largest entry strictly exceeds the 3rd-largest, the sparsified
vector has positive sum (the maximal entry survives the thresholding). -/
theorem sparsify_sum_pos (p : Fin 16 → ℝ) (hpos : ∀ k, 0 < p k)
    (htop : nthDesc p 2 < nthDesc p 0) : 0 < ∑ j, sparsify p j := by
  obtain ⟨k0, hk0⟩ := exists_eq_nthDesc_zero p
  have hk0' : nthDesc p 2 < p k0 := by rw [hk0]; exact htop
  have hsk0 : sparsify p k0 = p k0 := by
    unfold sparsify; rw [if_pos hk0', mul_one]
  calc (0:ℝ) < p k0 := hpos k0
    _ = sparsify p k0 := hsk0.symm
    _ ≤ ∑ j, sparsify p j :=
      Finset.single_le_sum (fun j _ => sparsify_nonneg p hpos j) (Finset.mem_univ k0)

/-- Sparsify-then-renormalize yields a probability vector with at most two
nonzero entries, provided the top entry is strictly above the 3rd-largest. -/
theorem renorm_sparsify_props (p : Fin 16 → ℝ) (hpos : ∀ k, 0 < p k)
    (htop : nthDesc p 2 < nthDesc p 0) :
    (∀ k, 0 ≤ renormalize (sparsify p) k) ∧
      (∑ k, renormalize (sparsify p) k) = 1 ∧
      ((List.ofFn (renormalize (sparsify p))).countP fun t => decide (t ≠ 0)) ≤ 2 := by
  have hsum := sparsify_sum_pos p hpos htop
  refine ⟨?_, ?_, ?_⟩
  · intro k
    exact div_nonneg (sparsify_nonneg p hpos k) hsum.le
  · unfold renormalize
    rw [← Finset.sum_div]
    exact div_self hsum.ne'
  · have hofn : List.ofFn (renormalize (sparsify p)) =
        (List.ofFn p).map fun t =>
          (t * if nthDesc p 2 < t then 1 else 0) / ∑ j, sparsify p j := by
      rw [List.map_ofFn]; rfl
    rw [hofn, List.countP_map]
    refine le_trans (List.countP_mono_left ?_) (countP_above_third_le_two p)
    intro a _ ha
    simp only [Function.comp_apply, decide_eq_true_eq] at ha ⊢
    by_contra hna
    rw [if_neg hna] at ha
    norm_num at ha

/-- When additionally the 2nd-largest entry strictly exceeds the 3rd-largest,
exactly the two entries above the threshold survive, and they are renormalized
to sum 1. -/
theorem renorm_sparsify_top2 (p : Fin 16 → ℝ) (hpos : ∀ k, 0 < p k)
    (h21 : nthDesc p 2 < nthDesc p 1) :
    ((List.ofFn (renormalize (sparsify p))).countP fun t => decide (t ≠ 0)) = 2 ∧
      (∀ k, renormalize (sparsify p) k ≠ 0 ↔ nthDesc p 2 < p k) ∧
      (∑ k, renormalize (sparsify p) k) = 1 := by
  have h20 : nthDesc p 2 < nthDesc p 0 := by
    obtain ⟨a, b, c, rest, hL, h0, h1, h2, hba, _, _⟩ := sortDesc_three p
    rw [h2, h0]
    rw [h2, h1] at h21
    exact lt_of_lt_of_le h21 hba
  have hsum := sparsify_sum_pos p hpos h20
  have hiff : ∀ k, renormalize (sparsify p) k ≠ 0 ↔ nthDesc p 2 < p k := by
    intro k
    unfold renormalize sparsify
    constructor
    · intro hne
      by_contra hna
      apply hne
      rw [if_neg hna]
      norm_num
    · intro hlt
      rw [if_pos hlt, mul_one]
      exact div_ne_zero (hpos k).ne' hsum.ne'
  refine ⟨?_, hiff, (renorm_sparsify_props p hpos h20).2.1⟩
  have hofn : List.ofFn (renormalize (sparsify p)) =
      (List.ofFn p).map fun t =>
        (t * if nthDesc p 2 < t then 1 else 0) / ∑ j, sparsify p j := by
    rw [List.map_ofFn]; rfl
  rw [hofn, List.countP_map]
  have hcc : ((List.ofFn p).countP
        ((fun t => decide (t ≠ 0)) ∘ fun t =>
          (t * if nthDesc p 2 < t then 1 else 0) / ∑ j, sparsify p j)) =
      (List.ofFn p).countP fun t => decide (nthDesc p 2 < t) := by
    apply le_antisymm
    · refine List.countP_mono_left ?_
      intro a _ ha
      simp only [Function.comp_apply, decide_eq_true_eq] at ha ⊢
      by_contra hna
      rw [if_neg hna] at ha
      norm_num at ha
    · refine List.countP_mono_left ?_
      intro a hmem ha
      simp only [Function.comp_apply, decide_eq_true_eq] at ha ⊢
      obtain ⟨i, hi⟩ := (List.mem_ofFn p a).mp hmem
      rw [if_pos ha, mul_one]
      exact div_ne_zero (hi ▸ (hpos i).ne') hsum.ne'
  rw [hcc]
  exact countP_above_third_eq_two p h21

/-- C2 amended: for every image/mask batch of matching shape (and noise draw),
provided the image's filter-response vector has its largest entry strictly above
its 3rd-largest (no 3-way tie at the top — softmax preserves this ordering),
`infer_label_probs` returns per image a non-negative vector over the 16 label
positions that sums exactly to 1 and has at most 2 nonzero entries. -/
theorem infer_label_probs_distribution (inp : OracleInpainter) {B : ℕ}
    (x mask eps : Fin B → Img) (b : Fin B)
    (h : nthDesc (logits inp (x b) (mask b) (eps b)) 2 <
      nthDesc (logits inp (x b) (mask b) (eps b)) 0) :
    (∀ k, 0 ≤ infer_label_probs inp x mask eps b k) ∧
      (∑ k, infer_label_probs inp x mask eps b k) = 1 ∧
      ((List.ofFn (infer_label_probs inp x mask eps b)).countP
        fun t => decide (t ≠ 0)) ≤ 2 :=
  renorm_sparsify_props (softmax (logits inp (x b) (mask b) (eps b))) (softmax_pos _)
    (nthDesc_softmax_lt (logits inp (x b) (mask b) (eps b)) 2 0
      (by norm_num) (by norm_num) h)

/-- C3 amended: whenever the image's 2nd-highest filter response strictly
exceeds its 3rd-highest, the sparsification step — which zeroes all softmax
probabilities at or below the 3rd-highest probability — retains exactly the top
2 (an entry survives iff it is strictly above the 3rd-highest probability), and
renormalizes the retained ones to sum exactly 1. -/
theorem infer_label_probs_top_two (inp : OracleInpainter) {B : ℕ}
    (x mask eps : Fin B → Img) (b : Fin B)
    (h : nthDesc (logits inp (x b) (mask b) (eps b)) 2 <
      nthDesc (logits inp (x b) (mask b) (eps b)) 1) :
    ((List.ofFn (infer_label_probs inp x mask eps b)).countP
        fun t => decide (t ≠ 0)) = 2 ∧
      (∀ k, infer_label_probs inp x mask eps b k ≠ 0 ↔
        nthDesc (softmax (logits inp (x b) (mask b) (eps b))) 2 <
          softmax (logits inp (x b) (mask b) (eps b)) k) ∧
      (∑ k, infer_label_probs inp x mask eps b k) = 1 :=
  renorm_sparsify_top2 (softmax (logits inp (x b) (mask b) (eps b))) (softmax_pos _)
    (nthDesc_softmax_lt (logits inp (x b) (mask b) (eps b)) 2 1
      (by norm_num) (by norm_num) h)

/-- One-image batch of all-zero images. -/
noncomputable def xC : Fin 1 → Img := fun _ _ _ => 0

/-- All-one (fully occluding) mask batch for `xC`. -/
noncomputable def mC : Fin 1 → Img := fun _ _ _ => 1

/-- All-zero noise draw for `xC`. -/
noncomputable def epsC : Fin 1 → Img := fun _ _ _ => 0

/-- On the fully-occluded all-zero image with zero noise the filter responses
all vanish. -/
theorem logits_xC_zero (k : Fin 16) : logits inpAvg (xC 0) (mC 0) (epsC 0) k = 0 := by
  have hm0 : masked_input (xC 0) (mC 0) (epsC 0) = fun _ _ => 0 := by
    funext i j
    unfold masked_input xC mC epsC
    norm_num
  show avg_pool (masked_input (xC 0) (mC 0) (epsC 0)) (crop_row k) (crop_col k) = 0
  rw [hm0]
  unfold avg_pool
  simp

/-- The 3rd-largest entry of a constant 16-entry vector is that constant. -/
theorem nthDesc_const (c : ℝ) : nthDesc (fun _ : Fin 16 => c) 2 = c := by
  obtain ⟨a, b, c', rest, hL, _, _, h2, _, _, _⟩ := sortDesc_three fun _ : Fin 16 => c
  rw [h2]
  obtain ⟨i, hi⟩ := mem_sortDesc (x := c') (by rw [hL]; simp)
  exact hi.symm

/-- On the tied (uniform-softmax) input every renormalized output entry is 0:
the sparsification zeroes all 16 entries and the renormalization divides by the
zero sum. -/
theorem infer_label_probs_xC_zero : infer_label_probs inpAvg xC mC epsC 0 = fun _ => 0 := by
  funext k
  show renormalize (sparsify (softmax (logits inpAvg (xC 0) (mC 0) (epsC 0)))) k = 0
  have hl : logits inpAvg (xC 0) (mC 0) (epsC 0) = fun _ => 0 :=
    funext logits_xC_zero
  rw [hl]
  have hsm : softmax (fun _ : Fin 16 => (0:ℝ)) = fun _ => 1 / 16 := by
    funext k'
    unfold softmax
    rw [Real.exp_zero]
    rw [Finset.sum_const]
    norm_num
  rw [hsm]
  unfold renormalize sparsify
  rw [nthDesc_const]
  simp

/-- C2 counterexample: on a constant image under an everywhere-occluding mask
with zero noise, all 16 softmax probabilities tie at 1/16, the sparsification
zeroes every entry, and the renormalized "distribution" sums to 0, not 1 —
so the claim fails without a tie-freeness proviso (in floating point the
division 0/0 would make the entries NaN). -/
theorem infer_label_probs_sum_zero_on_ties :
    (∑ k, infer_label_probs inpAvg xC mC epsC 0 k) = 0 ∧ (0 : ℝ) ≠ 1 := by
  refine ⟨?_, by norm_num⟩
  rw [infer_label_probs_xC_zero]
  simp

/-- C3 counterexample: on the same tied input, the sparsification retains zero
entries — not "exactly the top 2": every probability equals the 3rd-highest
value, so all are zeroed. -/
theorem sparsify_retains_none_on_ties :
    ((List.ofFn (infer_label_probs inpAvg xC mC epsC 0)).countP
        fun t => decide (t ≠ 0)) = 0 ∧ (0 : ℕ) ≠ 2 := by
  refine ⟨?_, by norm_num⟩
  rw [infer_label_probs_xC_zero]
  apply List.countP_eq_zero.mpr
  intro a ha
  obtain ⟨i, hi⟩ := (List.mem_ofFn _ a).mp ha
  simp [← hi]

/-- One-image batch of all-zero images for the distribution witness. -/
noncomputable def xW : Fin 1 → Img := fun _ _ _ => 0

/-- All-one (fully occluding) mask batch for the distribution witness. -/
noncomputable def mW : Fin 1 → Img := fun _ _ _ => 1

/-- Noise draw with two spikes, at pixels (4, 4) and (4, 20); after scaling by
the noise level 1/100 they contribute 128 and 64 to exactly one cropped pooling
window each (windows (1,1) and (1,4) of the 6×6 response grid). -/
noncomputable def epsW : Fin 1 → Img := fun _ i j =>
  if i.val = 4 ∧ j.val = 4 then 12800 else if i.val = 4 ∧ j.val = 20 then 6400 else 0

/-- The filter responses the witness input produces: 2 at flat index 0
(window (1,1)), 1 at flat index 3 (window (1,4)), 0 elsewhere. -/
noncomputable def litW : Fin 16 → ℝ := fun k => if k = 0 then 2 else if k = 3 then 1 else 0

/-- The masked input of the witness is the spike pattern scaled by the noise
level. -/
theorem masked_input_W :
    masked_input (xW 0) (mW 0) (epsW 0) = fun i j =>
      if i.val = 4 ∧ j.val = 4 then (128 : ℝ) else if i.val = 4 ∧ j.val = 20 then 64 else 0 := by
  funext i j
  unfold masked_input xW mW epsW MixtureOfBlocks.noise_level
  split_ifs <;> norm_num

/-- Evaluation of the 16 cropped filter responses on the witness input. -/
theorem logits_W : logits inpAvg (xW 0) (mW 0) (epsW 0) = litW := by
  funext k
  show avg_pool (masked_input (xW 0) (mW 0) (epsW 0)) (crop_row k) (crop_col k) = litW k
  rw [masked_input_W]
  fin_cases k <;>
    · simp only [avg_pool, winIdx, crop_row, crop_col, Fin.sum_univ_succ, Fin.sum_univ_zero]
      norm_num [litW]
      all_goals simp +decide [litW]

/-- The descending sort of the witness responses. -/
theorem sortDesc_litW :
    sortDesc (List.ofFn litW) = [2, 1, 0, 0, 0, 0, 0, 0, 0, 0, 0, 0, 0, 0, 0, 0] := by
  refine List.eq_of_perm_of_sorted ?_ (sorted_sortDesc _) ?_
  · refine (perm_sortDesc _).trans ?_
    show List.Perm ([2, 0, 0, 1, 0, 0, 0, 0, 0, 0, 0, 0, 0, 0, 0, 0] : List ℝ) _
    exact List.Perm.cons 2
      ((List.Perm.cons 0 (List.Perm.swap 1 0 _)).trans (List.Perm.swap 1 0 _))
  · simp only [List.sorted_cons, List.mem_cons, List.not_mem_nil, or_false]
    norm_num

/-- Largest witness response. -/
theorem nthDesc_litW_0 : nthDesc litW 0 = 2 := by
  unfold nthDesc
  rw [sortDesc_litW]
  rfl

/-- Second-largest witness response. -/
theorem nthDesc_litW_1 : nthDesc litW 1 = 1 := by
  unfold nthDesc
  rw [sortDesc_litW]
  rfl

/-- Third-largest witness response. -/
theorem nthDesc_litW_2 : nthDesc litW 2 = 0 := by
  unfold nthDesc
  rw [sortDesc_litW]
  rfl

/-- Witness for C2: on the concrete spike input the tie-freeness hypothesis
holds (responses 2 > 0) and the inferred label probabilities sum to 1. -/
theorem infer_label_probs_distribution_witness :
    (nthDesc (logits inpAvg (xW 0) (mW 0) (epsW 0)) 2 <
        nthDesc (logits inpAvg (xW 0) (mW 0) (epsW 0)) 0) ∧
      (∑ k, infer_label_probs inpAvg xW mW epsW 0 k) = 1 := by
  have h : nthDesc (logits inpAvg (xW 0) (mW 0) (epsW 0)) 2 <
      nthDesc (logits inpAvg (xW 0) (mW 0) (epsW 0)) 0 := by
    rw [logits_W, nthDesc_litW_2, nthDesc_litW_0]
    norm_num
  exact ⟨h, (infer_label_probs_distribution inpAvg xW mW epsW 0 h).2.1⟩

/-- Witness for C3: on the concrete spike input the 2nd-versus-3rd hypothesis
holds (responses 1 > 0) and exactly two entries of the result are nonzero. -/
theorem infer_label_probs_top_two_witness :
    (nthDesc (logits inpAvg (xW 0) (mW 0) (epsW 0)) 2 <
        nthDesc (logits inpAvg (xW 0) (mW 0) (epsW 0)) 1) ∧
      ((List.ofFn (infer_label_probs inpAvg xW mW epsW 0)).countP
        fun t => decide (t ≠ 0)) = 2 := by
  have h : nthDesc (logits inpAvg (xW 0) (mW 0) (epsW 0)) 2 <
      nthDesc (logits inpAvg (xW 0) (mW 0) (epsW 0)) 1 := by
    rw [logits_W, nthDesc_litW_2, nthDesc_litW_1]
    norm_num
  exact ⟨h, (infer_label_probs_top_two inpAvg xW mW epsW 0 h).1⟩
